import Mathlib

/-!
Verification development for the nascTUI calculation-sheet application.

The Go/C++ sources are shallowly embedded as Lean definitions:

* strings are modelled as `List Char` (one entry per rune);
* the external libqalculate oracle (`calculate_expression` in the C++
  wrapper) and the function/variable name lists it supplies are opaque
  parameters, collected in `CalcEnv`;
* the Bubble Tea model is a Lean structure and each message-handling
  path of `Update` becomes an explicit state-transition function.

Rendering-only state (viewports, themes, terminal sizes), the help and
go-to-line popups, and clipboard access are not observable by any
verified property and are omitted from the model.
-/

namespace Nasc

/-- Strings are modelled rune-by-rune as lists of characters. -/
abbrev Str := List Char

/-- Model of Go `unicode.IsSpace` on the Latin-1 range (the only
whitespace the verified inputs contain): tab, LF, VT, FF, CR, space,
NEL and NBSP.  Space runes outside Latin-1 are not modelled. -/
def isGoSpace (c : Char) : Bool :=
  c = ' ' || c = '\t' || c = '\n' || c = '\r' || c.val = 11 || c.val = 12 ||
    c.val = 133 || c.val = 160

/-- Model of Go `strings.TrimSpace`: drop whitespace from both ends. -/
def trimSpace (s : Str) : Str :=
  ((s.dropWhile isGoSpace).reverse.dropWhile isGoSpace).reverse

/-- Model of Go `strings.ToLower`; `Char.toLower` lower-cases the ASCII
letters, which covers every input the verified properties evaluate. -/
def toLowerStr (s : Str) : Str := s.map Char.toLower

/-- Model of Go `strings.Contains s sub`. -/
def strContains : Str → Str → Bool
  | [], sub => sub.isEmpty
  | c :: cs, sub => sub.isPrefixOf (c :: cs) || strContains cs sub

/-- Model of Go `strings.Index`: position of the first occurrence of
`sub` in `s` (counted in runes), or `none`. -/
def strIndexAux (sub : Str) : Nat → Str → Option Nat
  | i, [] => if sub.isEmpty then some i else none
  | i, c :: cs => if sub.isPrefixOf (c :: cs) then some i else strIndexAux sub (i + 1) cs

/-- First index of `sub` inside `s`, if any. -/
def strIndex (s sub : Str) : Option Nat := strIndexAux sub 0 s

/-- Fueled worker for `replaceAll`; the fuel is an upper bound on the
number of scanning steps (one per position of the original string), which
makes the definition structurally recursive and hence computable by the
kernel.  `replaceAll` always supplies enough fuel. -/
def replaceAllF (pat rep : Str) : Nat → Str → Str
  | _, [] => []
  | 0, s => s
  | fuel + 1, c :: cs =>
    if pat ≠ [] ∧ pat.isPrefixOf (c :: cs) then
      rep ++ replaceAllF pat rep fuel ((c :: cs).drop pat.length)
    else
      c :: replaceAllF pat rep fuel cs

/-- Model of Go `strings.ReplaceAll s pat rep` for non-empty `pat`:
replace the non-overlapping occurrences of `pat`, leftmost first.
(Go's behaviour for an empty pattern — interleaving `rep` everywhere —
is never exercised by this code base and is not modelled.) -/
def replaceAll (pat rep s : Str) : Str := replaceAllF pat rep s.length s

/-- The operator set of `CheckForCalculation` (`operators` in the Go
source). -/
def operators : List Str :=
  [("+".data), ("-".data), ("*".data), ("/".data), ("=".data), ("(".data), (")".data)]

/-- The external collaborators of the calculation pipeline: the
libqalculate oracle behind `calculate_expression` (returning `none`
models the C wrapper returning a null pointer) and the cached
function/variable completion lists of `getLibqalculateCompletions`.
Note that in the Go source the second list (`advancedFunctions`) also
receives the variable names, and the variable check of
`CheckForCalculation` iterates over exactly this second list. -/
structure CalcEnv where
  basicFunctions : List Str
  advancedFunctions : List Str
  oracle : Str → Option Str

/-- Embedding of `CheckForCalculation` (part_004, lines 421-477):
decides whether a line of input is worth evaluating. -/
def CheckForCalculation (env : CalcEnv) (input : Str) : Bool :=
  if input.isEmpty || (replaceAll ([' ']) ([]) input).isEmpty then false
  else if strContains input ("http://".data) then false
  else if input.any Char.isDigit then true
  else if input = ("tutorial()".data) then false
  else if operators.any (fun op => strContains input op) then true
  else if (env.basicFunctions ++ env.advancedFunctions).any
      (fun fct => strContains input (fct ++ ("(".data))) then true
  else if env.advancedFunctions.any
      (fun v => decide (3 < v.length) && strContains input v) then true
  else if ("ans".data).isPrefixOf input then true
  else false

/-- Embedding of `prepareString` (part_004, lines 479-494): strip a
trailing `//` comment and map currency glyphs to 3-letter codes. -/
def prepareString (input : Str) : Str :=
  let result := match strIndex input ("//".data) with
    | some commentPos => input.take commentPos
    | none => input
  let result := replaceAll ("€".data) ("EUR".data) result
  let result := replaceAll ("$".data) ("USD".data) result
  let result := replaceAll ("£".data) ("GBP".data) result
  replaceAll ("¥".data) ("JPY".data) result

/-- The superscript-digit table of `prettyPrint`. -/
def supDigit : Char → Option Str
  | '0' => some ("⁰".data)
  | '1' => some ("¹".data)
  | '2' => some ("²".data)
  | '3' => some ("³".data)
  | '4' => some ("⁴".data)
  | '5' => some ("⁵".data)
  | '6' => some ("⁶".data)
  | '7' => some ("⁷".data)
  | '8' => some ("⁸".data)
  | '9' => some ("⁹".data)
  | _ => none

/-- Map the digits of an exponent to superscripts, skipping anything
without a table entry, exactly like the `for _, digit := range exponent`
loop of `prettyPrint`. -/
def supDigits (ds : Str) : Str :=
  ds.foldl (fun acc d => acc ++ ((supDigit d).getD [])) []

/-- Superscript an exponent group including its optional sign
(`superscriptExp` construction in `prettyPrint`). -/
def supExp (e : Str) : Str :=
  match e with
  | '-' :: rest => ("⁻".data) ++ supDigits rest
  | '+' :: rest => supDigits rest
  | _ => supDigits e

/-- Match the scientific-notation regex of `prettyPrint`,
`(\d+\.?\d*)E([+-]?\d+)`, at the head of `s`.  Returns the base group,
the exponent group (sign included) and the rest of the string after the
match. -/
def matchE (s : Str) : Option (Str × Str × Str) :=
  let d1 := s.takeWhile Char.isDigit
  if d1.isEmpty then none
  else
    let s1 := s.drop d1.length
    let dotPart : Str × Str := match s1 with
      | '.' :: t => (['.'], t)
      | _ => ([], s1)
    let d2 := dotPart.2.takeWhile Char.isDigit
    let s3 := dotPart.2.drop d2.length
    match s3 with
    | 'E' :: s4 =>
      let signPart : Str × Str := match s4 with
        | '+' :: t => (['+'], t)
        | '-' :: t => (['-'], t)
        | _ => ([], s4)
      let e := signPart.2.takeWhile Char.isDigit
      if e.isEmpty then none
      else some (d1 ++ dotPart.1 ++ d2, signPart.1 ++ e, signPart.2.drop e.length)
    | _ => none

/-- Fueled scan for the scientific-notation rewriting pass of
`prettyPrint` (leftmost matches, replacement text not rescanned). -/
def ePassF : Nat → Str → Str
  | _, [] => []
  | 0, s => s
  | fuel + 1, c :: cs =>
    match matchE (c :: cs) with
    | some (base, expPart, rest) =>
      base ++ (" × 10".data) ++ supExp expPart ++ ePassF fuel rest
    | none => c :: ePassF fuel cs

/-- Match the caret regex of `prettyPrint`, `\^([+-]?\d+)`, at the head
of `s`: returns the exponent group (sign included) and the rest. -/
def matchCaret : Str → Option (Str × Str)
  | '^' :: s1 =>
    let signPart : Str × Str := match s1 with
      | '+' :: t => (['+'], t)
      | '-' :: t => (['-'], t)
      | _ => ([], s1)
    let e := signPart.2.takeWhile Char.isDigit
    if e.isEmpty then none else some (signPart.1 ++ e, signPart.2.drop e.length)
  | _ => none

/-- Fueled scan for the caret rewriting pass of `prettyPrint`. -/
def caretPassF : Nat → Str → Str
  | _, [] => []
  | 0, s => s
  | fuel + 1, c :: cs =>
    match matchCaret (c :: cs) with
    | some (expPart, rest) => supExp expPart ++ caretPassF fuel rest
    | none => c :: caretPassF fuel cs

/-- Embedding of `prettyPrint` (part_004, lines 496-562): rewrite
scientific notation, then caret exponents, to superscript form. -/
def prettyPrint (output : Str) : Str :=
  let result := ePassF output.length output
  caretPassF result.length result

/-- Embedding of `postString` (part_004, lines 564-580): currency codes
back to glyphs, degree-sign spacing, then pretty printing. -/
def postString (output : Str) : Str :=
  let result := replaceAll ("EUR".data) ("€".data) output
  let result := replaceAll ("USD".data) ("$".data) result
  let result := replaceAll ("GBP".data) ("£".data) result
  let result := replaceAll ("JPY".data) ("¥".data) result
  let result := replaceAll (" °".data) ("°".data) result
  prettyPrint result

/-- Word characters of the RE2 `\b` boundary: `[0-9A-Za-z_]`. -/
def isWordChar (c : Char) : Bool := c.isAlphanum || c = '_'

/-- Does the regex `\bans\b` match at the head of `s`, given the
character immediately before `s` in the original string (`none` at the
start of the string)? -/
def ansBoundaryHere (prev : Option Char) (s : Str) : Bool :=
  ("ans".data).isPrefixOf s &&
    (match prev with
     | none => true
     | some p => !isWordChar p) &&
    (match s.drop 3 with
     | [] => true
     | d :: _ => !isWordChar d)

/-- Scan for a `\bans\b` match anywhere (Go `ansRegex.MatchString`). -/
def hasBareAnsAux : Option Char → Str → Bool
  | _, [] => false
  | prev, c :: cs => ansBoundaryHere prev (c :: cs) || hasBareAnsAux (some c) cs

/-- Whether `\bans\b` matches somewhere in `s`. -/
def hasBareAns (s : Str) : Bool := hasBareAnsAux none s

/-- Name characters of a Go regexp replacement-template reference
(`$name` or `${name}`): letters, digits and underscore.  Go uses
`unicode.IsLetter`/`IsDigit`; the ASCII subset covers every input the
verified properties evaluate, consistent with the rest of the model. -/
def isTemplNameChar (c : Char) : Bool := c.isAlphanum || c = '_'

/-- Model of `extract` in Go's regexp package (the `$` has already been
consumed by the caller): parse a leading `name` or `{name}` — the name
taken as long as possible — returning the name and the rest of the
template, or `none` when malformed (empty name or missing closing
brace). -/
def extractName (s : Str) : Option (Str × Str) :=
  match s with
  | '{' :: t =>
    let name := t.takeWhile isTemplNameChar
    if name.isEmpty then none
    else match t.drop name.length with
      | '}' :: rest => some (name, rest)
      | _ => none
  | _ =>
    let name := s.takeWhile isTemplNameChar
    if name.isEmpty then none else some (name, s.drop name.length)

/-- The text a well-formed `$`-reference contributes for the pattern
`\bans\b`, whose groups are the overall group `0` and nothing else: the
numeric name `0` yields the matched text; every other reference —
numeric out of range, numeric with a leading zero (which Go demotes to a
named reference), or named (the single unnamed group never equals a
non-empty name) — yields the empty string, as Go's `Expand` does for
references to groups the pattern does not have. -/
def ansGroupRef (matched name : Str) : Str :=
  if name = ['0'] then matched else []

/-- What follows a `$` in a Go replacement template: `$$` yields a
literal `$`, a well-formed `$name`/`${name}` reference yields
`ansGroupRef`, and a malformed `$` is kept as raw text; `recur`
continues the scan over the unconsumed rest of the template. -/
def expandDollar (matched : Str) (recur : Str → Str) : Str → Str
  | '$' :: rest2 => '$' :: recur rest2
  | rest =>
    match extractName rest with
    | none => '$' :: recur rest
    | some (name, rest2) => ansGroupRef matched name ++ recur rest2

/-- Model of Go `Regexp.Expand` applied to a replacement template for
one match of the group-free pattern `\bans\b` (matched text `matched`).
Fueled like the other scanners; each step consumes at least one template
character. -/
def expandTemplateF (matched : Str) : Nat → Str → Str
  | _, [] => []
  | 0, s => s
  | fuel + 1, c :: rest =>
    if c = '$' then expandDollar matched (expandTemplateF matched fuel) rest
    else c :: expandTemplateF matched fuel rest

/-- The text Go's `ansRegex.ReplaceAllString` inserts for one `\bans\b`
match when the replacement argument is `rep`: the template expansion of
`rep` against the matched text `ans`. -/
def expandAnsTemplate (rep : Str) : Str := expandTemplateF ("ans".data) rep.length rep

/-- Fueled worker of `replaceBareAns`: each non-overlapping leftmost
`\bans\b` match is replaced by the template expansion of `rep` (Go's
`ReplaceAllString` expands `$`-references in the replacement, it does
not insert it literally); boundaries are judged against the original
characters, and replacement text is not rescanned. -/
def bareAnsAuxF (rep : Str) : Nat → Option Char → Str → Str
  | _, _, [] => []
  | 0, _, s => s
  | fuel + 1, prev, c :: cs =>
    if ansBoundaryHere prev (c :: cs) then
      expandAnsTemplate rep ++ bareAnsAuxF rep fuel (some 's') ((c :: cs).drop 3)
    else
      c :: bareAnsAuxF rep fuel (some c) cs

/-- Model of Go `ansRegex.ReplaceAllString s rep` for `\bans\b`,
`$`-template expansion of the replacement included. -/
def replaceBareAns (rep s : Str) : Str := bareAnsAuxF rep s.length none s

/-- The scan `for i := currentIndex - 1; i >= 0; i--` of
`CalculateExpression`: nearest non-empty prior result below `k`. -/
def lastNonEmpty (results : List Str) : Nat → Option Str
  | 0 => none
  | k + 1 => if results.getD k [] ≠ [] then some (results.getD k []) else lastNonEmpty results k

/-- Embedding of the reference-resolution block of `CalculateExpression`
(part_004, lines 604-629): first the numbered `ansN` tokens are replaced
by plain substring substitution for `i` ascending (the loop runs while
`i < currentIndex && i < len(results)`), then a word-boundary-delimited
bare `ans` is replaced by the nearest non-empty prior result, or `"0"`
when there is none. -/
def resolveAns (results : List Str) (currentIndex : Nat) (expr : Str) : Str :=
  let processed := (List.range (min currentIndex results.length)).foldl
    (fun acc i =>
      let ansPattern := ("ans".data) ++ (Nat.repr (i + 1)).data
      if results.getD i [] ≠ [] then replaceAll ansPattern (results.getD i []) acc
      else replaceAll ansPattern ("0".data) acc)
    expr
  if hasBareAns processed then
    match lastNonEmpty results currentIndex with
    | some r => replaceBareAns r processed
    | none => replaceBareAns ("0".data) processed
  else processed

/-- Embedding of `CalculateExpression` (part_004, lines 582-659).  The C
call `calculate_expression` is the `env.oracle` parameter; `none` models
the null-pointer return handled by `ErrorCalculationFailed`. -/
def CalculateExpression (env : CalcEnv) (expr : Str) (results : List Str)
    (currentIndex : Nat) : Str :=
  if expr = [] then []
  else
    let trimmedExpr := trimSpace (toLowerStr expr)
    if trimmedExpr = ("0/0".data) then ("¯\\_(ツ)_/¯".data)
    else if trimmedExpr = ("infinity".data) ∨ trimmedExpr = ("inf".data) then
      ("∞ The void stares back ∞".data)
    else if !CheckForCalculation env expr then []
    else
      let processedExpr := resolveAns results currentIndex (prepareString expr)
      match env.oracle processedExpr with
      | none => ("Calculation failed".data)
      | some rawResult =>
        if rawResult = [] then ("Invalid expression".data)
        else
          let trimmedResult := trimSpace rawResult
          if strContains (toLowerStr trimmedResult) ("error".data) ||
              strContains (toLowerStr trimmedResult) ("undefined".data) ||
              strContains (toLowerStr trimmedResult) ("invalid".data) then
            trimmedResult
          else postString trimmedResult

/-- A Bubble Tea `textinput.Model`, reduced to its observable state:
the text value, the (rune) cursor position and the focus flag.  The
widget keeps `cursor ≤ value.length`; `mkInput` enforces the same
clamping as `SetCursor`. -/
structure TextInput where
  value : Str
  cursor : Nat
  focused : Bool
deriving DecidableEq

instance : Inhabited TextInput := ⟨⟨[], 0, false⟩⟩

/-- Build a text input with the clamping behaviour of
`textinput.SetValue` + `SetCursor` (the cursor never exceeds the value
length). -/
def mkInput (v : Str) (cur : Nat) (foc : Bool) : TextInput :=
  ⟨v, min cur v.length, foc⟩

/-- Embedding of `UndoState` (part_007): a snapshot of the sheet. -/
structure UndoState where
  inputValues : List Str
  results : List Str
  focusedIdx : Nat
  cursorPos : Nat
deriving DecidableEq

instance : Inhabited UndoState := ⟨⟨[], [], 0, 0⟩⟩

/-- Embedding of `UndoSystem` (part_007). -/
structure UndoSystem where
  undoStack : List UndoState
  redoStack : List UndoState
  maxSize : Nat
deriving DecidableEq

/-- Embedding of `NewUndoSystem`. -/
def NewUndoSystem : UndoSystem := ⟨[], [], 50⟩

/-- Embedding of the Bubble Tea `Model` (part_005), restricted to the
fields the calculation pipeline and the undo engine read or write.
`undoSystem` is an `Option` because the Go field is a nil-able pointer. -/
structure Model where
  inputs : List TextInput
  results : List Str
  calculating : List Bool
  focusedIdx : Nat
  undoSystem : Option UndoSystem
deriving DecidableEq

/-- Embedding of `InitialModel` (part_005): one empty focused line. -/
def initialModel : Model :=
  { inputs := [⟨[], 0, true⟩]
    results := [[]]
    calculating := [false]
    focusedIdx := 0
    undoSystem := some NewUndoSystem }

/-- Embedding of `createSnapshot` (part_007, lines 32-52). -/
def createSnapshot (m : Model) : UndoState :=
  { inputValues := m.inputs.map (fun ti => ti.value)
    results := m.results
    focusedIdx := m.focusedIdx
    cursorPos :=
      if m.focusedIdx < m.inputs.length then (m.inputs.getD m.focusedIdx default).cursor
      else 0 }

/-- The `if len(stack) > maxSize { stack = stack[1:] }` trimming used by
`saveState`, `undo` and `redo`. -/
def trimStack (maxSize : Nat) (stack : List UndoState) : List UndoState :=
  if maxSize < stack.length then stack.drop 1 else stack

/-- Embedding of `saveState` (part_007, lines 55-72): push a snapshot on
the undo stack (evicting the oldest beyond `maxSize`) and clear the redo
stack.  A nil undo system makes it a no-op. -/
def saveStateM (m : Model) : Model :=
  match m.undoSystem with
  | none => m
  | some us =>
    let snapshot := createSnapshot m
    let us' : UndoSystem :=
      { us with undoStack := trimStack us.maxSize (us.undoStack ++ [snapshot]), redoStack := [] }
    { m with undoSystem := some us' }

/-- One rebuilt input of `restoreState`: the focused line gets the
snapshot cursor clamped to the restored text, the others are blurred
(`SetValue` leaves their cursor at the end of the text). -/
def mkRestoredInput (state : UndoState) (i : Nat) (v : Str) : TextInput :=
  if i = state.focusedIdx then
    { value := v
      cursor := if state.cursorPos ≤ v.length then state.cursorPos else v.length
      focused := true }
  else { value := v, cursor := v.length, focused := false }

/-- The input-rebuilding loop of `restoreState`, indexed from `i`. -/
def rebuildInputs (state : UndoState) : Nat → List Str → List TextInput
  | _, [] => []
  | i, v :: vs => mkRestoredInput state i v :: rebuildInputs state (i + 1) vs

/-- Embedding of `restoreState` (part_007, lines 75-119): rebuild all
inputs from the snapshot, restore results, reset every calculating flag
to false, and clamp the focus into range (the Go code clamps first to
`len-1` and then to `0`; with `Nat` arithmetic `len - 1` already covers
both clamps). -/
def restoreStateM (m : Model) (state : UndoState) : Model :=
  let inputs := rebuildInputs state 0 state.inputValues
  { inputs := inputs
    results := state.results
    calculating := List.replicate inputs.length false
    focusedIdx := if inputs.length ≤ state.focusedIdx then inputs.length - 1 else state.focusedIdx
    undoSystem := m.undoSystem }

/-- Embedding of `undo` (part_007, lines 122-143): returns the new model
and the boolean result.  On a nil system or an empty undo stack it
returns `false` and the model unchanged; otherwise it pushes a snapshot
of the current state on the (bounded) redo stack, pops the most recent
undo entry and restores it. -/
def undoM (m : Model) : Model × Bool :=
  match m.undoSystem with
  | none => (m, false)
  | some us =>
    if h : us.undoStack = [] then (m, false)
    else
      let currentState := createSnapshot m
      let us' : UndoSystem :=
        { us with undoStack := us.undoStack.dropLast,
                  redoStack := trimStack us.maxSize (us.redoStack ++ [currentState]) }
      let m' := { m with undoSystem := some us' }
      (restoreStateM m' (us.undoStack.getLast h), true)

/-- Embedding of `redo` (part_007, lines 146-167), symmetric to `undo`. -/
def redoM (m : Model) : Model × Bool :=
  match m.undoSystem with
  | none => (m, false)
  | some us =>
    if h : us.redoStack = [] then (m, false)
    else
      let currentState := createSnapshot m
      let us' : UndoSystem :=
        { us with undoStack := trimStack us.maxSize (us.undoStack ++ [currentState]),
                  redoStack := us.redoStack.dropLast }
      let m' := { m with undoSystem := some us' }
      (restoreStateM m' (us.redoStack.getLast h), true)

/-- Embedding of `CalculationMsg` (part_004): the completion message
carries only the line index and the result text — there is no token. -/
structure CalcMsg where
  index : Nat
  result : Str
deriving DecidableEq

/-- A dispatched Bubble Tea command.  `CalculateCmd expr results index`
(ui_utils.go, lines 126-131) captures the expression, the result slice
and the index at dispatch time and later delivers
`CalculationMsg{index, CalculateExpression(expr, results, index)}`. -/
inductive Cmd where
  | calc (expr : Str) (results : List Str) (index : Nat)
deriving DecidableEq

/-- The guard of the cascade loop in `handleCalculationMessage`:
`expr != "" && !m.Calculating[i]`. -/
def cascadeGuard (inputs : List TextInput) (calculating : List Bool) (i : Nat) : Bool :=
  !(inputs.getD i default).value.isEmpty && !(calculating.getD i false)

/-- The `for i := msg.Index + 1; i < len(m.Inputs); i++` loop of
`handleCalculationMessage`: walk the given indices, and for each line
that passes the guard mark it calculating and emit a `CalculateCmd`. -/
def cascadeLoop (inputs : List TextInput) (results : List Str) :
    List Nat → List Bool → List Bool × List Cmd
  | [], calculating => (calculating, [])
  | i :: rest, calculating =>
    if cascadeGuard inputs calculating i then
      let out := cascadeLoop inputs results rest (calculating.set i true)
      (out.1, Cmd.calc (inputs.getD i default).value results i :: out.2)
    else cascadeLoop inputs results rest calculating

/-- Embedding of `handleCalculationMessage` (part_003, lines 38-57): if
the index is in bounds, store the delivered result, clear the
calculating flag, and re-submit every later non-empty line that is not
currently calculating.  There is no token comparison of any kind. -/
def handleCalculationMessage (m : Model) (msg : CalcMsg) : Model × List Cmd :=
  if msg.index < m.results.length then
    let results' := m.results.set msg.index msg.result
    let calculating' := m.calculating.set msg.index false
    let idxs := List.range' (msg.index + 1) (m.inputs.length - (msg.index + 1))
    let out := cascadeLoop m.inputs results' idxs calculating'
    ({ m with results := results', calculating := out.1 }, out.2)
  else (m, [])

/-- The calculation-triggering block at the bottom of `Update` (ui.go):
after a key message falls through the handler, the focused line is
re-submitted when it is non-empty and not already calculating, and its
result is cleared when it became empty. -/
def afterKeyDispatch (m : Model) : Model × List Cmd :=
  let expr := (m.inputs.getD m.focusedIdx default).value
  if !(m.calculating.getD m.focusedIdx false) && !expr.isEmpty then
    ({ m with calculating := m.calculating.set m.focusedIdx true },
      [Cmd.calc expr m.results m.focusedIdx])
  else if expr.isEmpty then
    ({ m with results := m.results.set m.focusedIdx [] }, [])
  else (m, [])

/-- A plain text edit of the focused line (an ordinary key press routed
through `m.Inputs[m.Focused].Update(msg)` in `Update`): the text input
changes value and cursor — no undo bookkeeping is involved — and then
the calculation-trigger block of `Update` runs. -/
def typingStep (m : Model) (v : Str) (cur : Nat) : Model × List Cmd :=
  afterKeyDispatch { m with inputs := m.inputs.set m.focusedIdx (mkInput v cur true) }

/-- Embedding of `insertSymbol` (part_002, lines 33-52), the Ctrl+R /
Ctrl+A / Ctrl+P path: save undo state, splice the symbol at the cursor,
and trigger a calculation if the line is not already calculating.  (When
no command is dispatched, `Update` falls through to its own trigger
block, which the `calculating` guard then also skips, so the net effect
is the same in both Go paths.  Go advances the cursor by the byte length
of the symbol; the rune-level model uses the rune length, which no
verified property observes.) -/
def insertSymbolStep (m : Model) (sym : Str) : Model × List Cmd :=
  let m0 := saveStateM m
  let ti := m0.inputs.getD m0.focusedIdx default
  let newValue := ti.value.take ti.cursor ++ sym ++ ti.value.drop ti.cursor
  let inputs1 := m0.inputs.set m0.focusedIdx (mkInput newValue (ti.cursor + sym.length) true)
  let m1 := { m0 with inputs := inputs1 }
  if !(m1.calculating.getD m1.focusedIdx false) && !newValue.isEmpty then
    ({ m1 with calculating := m1.calculating.set m1.focusedIdx true },
      [Cmd.calc newValue m1.results m1.focusedIdx])
  else (m1, [])

/-- The Ctrl+Z path: `handleKeyMessage` runs `m.undo()` and returns a
nil command, so `Update` falls through to its calculation-trigger block
on the restored model. -/
def undoKeyStep (m : Model) : Model × List Cmd := afterKeyDispatch (undoM m).1

/-- The Ctrl+Y path, symmetric to `undoKeyStep`. -/
def redoKeyStep (m : Model) : Model × List Cmd := afterKeyDispatch (redoM m).1

/-- The completion of a dispatched `CalculateCmd` (ui_utils.go, lines
126-131): the goroutine evaluates the captured expression against the
captured result slice and delivers a `CalculationMsg`. -/
def mkMsg (env : CalcEnv) (expr : Str) (results : List Str) (index : Nat) : CalcMsg :=
  { index := index, result := CalculateExpression env expr results index }

/-- The event-loop semantics of the calculation pipeline: a system state
is the model plus the multiset of dispatched-but-uncompleted commands.
Key events run their handler synchronously and append the dispatched
commands; a pending command may complete at any time, in any order, and
its message is processed by `handleCalculationMessage`. -/
inductive SysStep (env : CalcEnv) : Model × List Cmd → Model × List Cmd → Prop
  | typing (m : Model) (pend : List Cmd) (v : Str) (cur : Nat) :
      SysStep env (m, pend) ((typingStep m v cur).1, pend ++ (typingStep m v cur).2)
  | insertSym (m : Model) (pend : List Cmd) (sym : Str) :
      SysStep env (m, pend) ((insertSymbolStep m sym).1, pend ++ (insertSymbolStep m sym).2)
  | undoKey (m : Model) (pend : List Cmd) :
      SysStep env (m, pend) ((undoKeyStep m).1, pend ++ (undoKeyStep m).2)
  | redoKey (m : Model) (pend : List Cmd) :
      SysStep env (m, pend) ((redoKeyStep m).1, pend ++ (redoKeyStep m).2)
  | complete (m : Model) (pend₁ pend₂ : List Cmd) (expr : Str) (results : List Str) (index : Nat) :
      SysStep env (m, pend₁ ++ Cmd.calc expr results index :: pend₂)
        ((handleCalculationMessage m (mkMsg env expr results index)).1,
          pend₁ ++ pend₂ ++ (handleCalculationMessage m (mkMsg env expr results index)).2)

/-- Reachability of the event-loop semantics from a given system state. -/
def SysReach (env : CalcEnv) : Model × List Cmd → Model × List Cmd → Prop :=
  Relation.ReflTransGen (SysStep env)

/-- Well-formedness of a model, maintained by every operation of the
application: at least one line, focus in range, every cursor within its
text, and the three per-line lists of equal length. -/
def WF (m : Model) : Prop :=
  0 < m.inputs.length ∧ m.focusedIdx < m.inputs.length ∧
    (∀ i, i < m.inputs.length →
      (m.inputs.getD i default).cursor ≤ (m.inputs.getD i default).value.length) ∧
    m.results.length = m.inputs.length ∧ m.calculating.length = m.inputs.length

instance (m : Model) : Decidable (WF m) := by
  unfold WF; infer_instance

/-- Well-formedness of a snapshot, as produced by `createSnapshot` from
a well-formed model. -/
def SnapWF (s : UndoState) : Prop :=
  0 < s.inputValues.length ∧ s.focusedIdx < s.inputValues.length ∧
    s.cursorPos ≤ (s.inputValues.getD s.focusedIdx []).length ∧
    s.results.length = s.inputValues.length

instance (s : UndoState) : Decidable (SnapWF s) := by
  unfold SnapWF; infer_instance

/-- The sheet-observable part of a model: all line texts, all result
texts, the focused index and the cursor offset of the focused line. -/
def sheetOf (m : Model) : List Str × List Str × Nat × Nat :=
  (m.inputs.map (fun ti => ti.value), m.results, m.focusedIdx,
    (m.inputs.getD m.focusedIdx default).cursor)

/-- The mutations that touch a sheet, abstracted for the undo-engine
claims: `save` is `saveState` (called by line insert/delete/clear/
paste/template/completion/symbol/reference-click before mutating),
`doUndo`/`doRedo` are the two undo-engine operations, and `edit` is any
mutation that leaves the undo system untouched (plain typing, focus
moves, calculation completions and cascade flag updates), constrained
only to preserve well-formedness as every concrete operation does. -/
inductive Step : Model → Model → Prop
  | save (m : Model) : Step m (saveStateM m)
  | doUndo (m : Model) : Step m (undoM m).1
  | doRedo (m : Model) : Step m (redoM m).1
  | edit (m : Model) (inputs' : List TextInput) (results' : List Str)
      (calculating' : List Bool) (focused' : Nat)
      (h : WF { inputs := inputs', results := results', calculating := calculating',
                focusedIdx := focused', undoSystem := m.undoSystem }) :
      Step m { inputs := inputs', results := results', calculating := calculating',
               focusedIdx := focused', undoSystem := m.undoSystem }

/-- Reachability of a model from `InitialModel` by sheet mutations. -/
def Reachable (m : Model) : Prop := Relation.ReflTransGen Step initialModel m

/-- Rule 1 of the specified classifier: empty or whitespace-only text. -/
def wsOnly (input : Str) : Bool := input.isEmpty || input.all isGoSpace

/-- The classifier exactly as the specification words it: an ordered
rule list, first match decides.  Rules 2-8 use the same observations as
the code; rule 1 is the specification's "empty or whitespace-only". -/
def shouldEvaluateSpec (env : CalcEnv) (input : Str) : Bool :=
  if wsOnly input then false
  else if strContains input ("http://".data) then false
  else if input.any Char.isDigit then true
  else if input = ("tutorial()".data) then false
  else if operators.any (fun op => strContains input op) then true
  else if (env.basicFunctions ++ env.advancedFunctions).any
      (fun fct => strContains input (fct ++ ("(".data))) then true
  else if env.advancedFunctions.any
      (fun v => decide (3 < v.length) && strContains input v) then true
  else if ("ans".data).isPrefixOf input then true
  else false

/-- Reference resolution as the amended claim words it: for each `i`
from `0` to `currentIndex - 1` replace every `ans(i+1)` token literally
by the prior result (or `"0"` when empty), then replace every
word-boundary bare `ans` by the regexp-template expansion of the nearest
non-empty prior result — which is the result text itself whenever it
contains no `$` — or of `"0"` when none exists. -/
def resolveSpec (priorResults : List Str) (currentIndex : Nat) (text : Str) : Str :=
  let t1 := (List.range currentIndex).foldl
    (fun acc i =>
      let ansPattern := ("ans".data) ++ (Nat.repr (i + 1)).data
      if priorResults.getD i [] ≠ [] then replaceAll ansPattern (priorResults.getD i []) acc
      else replaceAll ansPattern ("0".data) acc)
    text
  replaceBareAns ((lastNonEmpty priorResults currentIndex).getD ("0".data)) t1

/-! ### Supporting lemmas -/

theorem isPrefixOf_mem : ∀ (sub s : Str), sub.isPrefixOf s = true → ∀ c ∈ sub, c ∈ s := by
  intro sub
  induction sub with
  | nil => intro s _ c hc; cases hc
  | cons a as ih =>
    intro s h c hc
    cases s with
    | nil => cases h
    | cons b bs =>
      rw [show (a :: as).isPrefixOf (b :: bs) = (a == b && as.isPrefixOf bs) from rfl,
        Bool.and_eq_true] at h
      rcases List.mem_cons.mp hc with rfl | hc
      · rw [show c = b from eq_of_beq h.1]
        exact List.mem_cons_self b bs
      · exact List.mem_cons_of_mem b (ih bs h.2 c hc)

theorem isPrefixOf_length : ∀ (sub s : Str), sub.isPrefixOf s = true →
    sub.length ≤ s.length := by
  intro sub
  induction sub with
  | nil => intro s _; simp
  | cons a as ih =>
    intro s h
    cases s with
    | nil => cases h
    | cons b bs =>
      rw [show (a :: as).isPrefixOf (b :: bs) = (a == b && as.isPrefixOf bs) from rfl,
        Bool.and_eq_true] at h
      simpa using ih bs h.2

theorem strContains_mem {s sub : Str} (h : strContains s sub = true) : ∀ c ∈ sub, c ∈ s := by
  induction s with
  | nil =>
    simp only [strContains, List.isEmpty_iff] at h
    subst h; intro c hc; cases hc
  | cons a as ih =>
    simp only [strContains, Bool.or_eq_true] at h
    rcases h with h | h
    · exact isPrefixOf_mem sub (a :: as) h
    · exact fun c hc => List.mem_cons_of_mem a (ih h c hc)

theorem strContains_length {s sub : Str} (h : strContains s sub = true) :
    sub.length ≤ s.length := by
  induction s with
  | nil =>
    simp only [strContains, List.isEmpty_iff] at h
    simp [h]
  | cons a as ih =>
    simp only [strContains, Bool.or_eq_true] at h
    rcases h with h | h
    · exact isPrefixOf_length sub (a :: as) h
    · exact Nat.le_trans (ih h) (by simp)

theorem replaceAllF_space : ∀ (n : Nat) (s : Str), s.length ≤ n →
    replaceAllF ([' ']) ([]) n s = s.filter (fun c => !(c == ' ')) := by
  intro n
  induction n with
  | zero => intro s hs; rw [List.length_eq_zero.mp (Nat.le_zero.mp hs)]; rfl
  | succ n ih =>
    intro s hs
    match s with
    | [] => rfl
    | c :: cs =>
      by_cases hc : c = ' '
      · subst hc
        have hpre : ([' '] : Str).isPrefixOf (' ' :: cs) = true := by
          simp [List.isPrefixOf]
        rw [replaceAllF, if_pos ⟨by simp, hpre⟩]
        simpa using ih cs (Nat.le_of_succ_le_succ hs)
      · have hpre : ([' '] : Str).isPrefixOf (c :: cs) = false := by
          simp [List.isPrefixOf, hc, Ne.symm hc]
        rw [replaceAllF, if_neg (by simp [hpre])]
        rw [List.filter_cons, ih cs (Nat.le_of_succ_le_succ hs)]
        simp [hc]

theorem replaceAll_space (s : Str) :
    replaceAll ([' ']) ([]) s = s.filter (fun c => !(c == ' ')) :=
  replaceAllF_space s.length s (Nat.le_refl _)

theorem ws_not_digit {c : Char} (h : isGoSpace c = true) : c.isDigit = false := by
  simp only [isGoSpace, Bool.or_eq_true, decide_eq_true_eq] at h
  rcases h with (((((((h | h) | h) | h) | h) | h) | h) | h)
  · subst h; decide
  · subst h; decide
  · subst h; decide
  · subst h; decide
  all_goals
    simp only [Char.isDigit, Char.le_def, h]
    decide

/-! ### Claim C9: easter eggs for 0/0 and infinity -/

/-- C9: for every input whose whitespace-trimmed, lower-cased form is
`0/0` the evaluation returns the shrug literal, and for `infinity` or
`inf` it returns the void literal; in both cases the result does not
depend on the oracle, the classifier lists, the prior results or the
line index (all of which are universally quantified here). -/
theorem calc_easter_eggs (env : CalcEnv) (expr : Str) (results : List Str)
    (currentIndex : Nat) :
    (trimSpace (toLowerStr expr) = ("0/0".data) →
      CalculateExpression env expr results currentIndex = ("¯\\_(ツ)_/¯".data)) ∧
    ((trimSpace (toLowerStr expr) = ("infinity".data) ∨
        trimSpace (toLowerStr expr) = ("inf".data)) →
      CalculateExpression env expr results currentIndex =
        ("∞ The void stares back ∞".data)) := by
  constructor
  · intro h
    have hne : ¬(expr = []) := by
      intro he; rw [he] at h; exact absurd h (by decide)
    rw [CalculateExpression, if_neg hne, if_pos h]
  · intro h
    have hne : ¬(expr = []) := by
      intro he; rw [he] at h
      rcases h with h | h <;> exact absurd h (by decide)
    rcases h with h | h
    · rw [CalculateExpression, if_neg hne, if_neg (by rw [h]; decide),
        if_pos (Or.inl h)]
    · rw [CalculateExpression, if_neg hne, if_neg (by rw [h]; decide),
        if_pos (Or.inr h)]

/-- A concrete environment used to instantiate hypotheses in witnesses:
one basic function name, one long variable name, and an oracle that
echoes a few fixed results. -/
def witnessEnv : CalcEnv where
  basicFunctions := [("sin".data)]
  advancedFunctions := [("euler".data)]
  oracle := fun s => some s

theorem calc_easter_eggs_witness :
    (trimSpace (toLowerStr (" 0/0 ".data)) = ("0/0".data) ∧
      CalculateExpression witnessEnv (" 0/0 ".data) [] 0 = ("¯\\_(ツ)_/¯".data)) ∧
    (trimSpace (toLowerStr (" Inf".data)) = ("inf".data) ∧
      CalculateExpression witnessEnv (" Inf".data) [("9".data)] 3 =
        ("∞ The void stares back ∞".data)) :=
  ⟨⟨by decide, (calc_easter_eggs witnessEnv (" 0/0 ".data) [] 0).1 (by decide)⟩,
   ⟨by decide, (calc_easter_eggs witnessEnv (" Inf".data) [("9".data)] 3).2
      (Or.inr (by decide))⟩⟩

/-! ### Claim C10: numbered substitution has no token boundaries -/

/-- A prior-results list with `results[0] = "4"` and line 12's result
`results[11] = "99"` non-empty. -/
def c10Results : List Str :=
  [("4".data), [], [], [], [], [], [], [], [], [], [], ("99".data)]

/-- C10: numbered reference substitution is plain substring replacement
for `i` ascending without token-boundary checks: at `currentIndex = 12`
with `priorResults[0] = "4"`, the text `ans12` is rewritten by the
`i = 0` pass into `42` and never receives line 12's result `99`. -/
theorem numbered_ans_no_boundary :
    resolveAns c10Results 12 ("ans12".data) = ("42".data) ∧
    strContains (resolveAns c10Results 12 ("ans12".data)) ("99".data) = false ∧
    c10Results.getD 11 [] = ("99".data) := by
  decide

/-! ### Claim C5: undo/redo on an empty stack is a no-op -/

/-- C5: with an empty UndoStack (or a nil undo system), `undo` returns
`false` and the entire model — expressions, results, focus, cursor and
both stacks — is returned unchanged; `redo` behaves symmetrically for an
empty RedoStack.  The boolean is the only failure signal. -/
theorem undo_redo_empty_noop (m : Model) :
    ((m.undoSystem = none ∨ ∃ us, m.undoSystem = some us ∧ us.undoStack = []) →
      undoM m = (m, false)) ∧
    ((m.undoSystem = none ∨ ∃ us, m.undoSystem = some us ∧ us.redoStack = []) →
      redoM m = (m, false)) := by
  constructor
  · rintro (h | ⟨us, hus, hstack⟩)
    · simp [undoM, h]
    · simp [undoM, hus, hstack]
  · rintro (h | ⟨us, hus, hstack⟩)
    · simp [redoM, h]
    · simp [redoM, hus, hstack]

theorem undo_redo_empty_noop_witness :
    undoM initialModel = (initialModel, false) ∧
    redoM initialModel = (initialModel, false) :=
  ⟨(undo_redo_empty_noop initialModel).1 (Or.inr ⟨NewUndoSystem, rfl, rfl⟩),
   (undo_redo_empty_noop initialModel).2 (Or.inr ⟨NewUndoSystem, rfl, rfl⟩)⟩

/-! ### Claim C7: which mutations clear the redo stack -/

/-- First step of the C7 trace: type `7` into the initial model (a plain
text edit, no undo bookkeeping). -/
def c7m1 : Model := (typingStep initialModel ("7".data) 1).1

/-- Second step: insert the symbol `π` (this path calls `saveState`). -/
def c7m2 : Model := (insertSymbolStep c7m1 ("π".data)).1

/-- Third step: Ctrl+Z — undo back to the state before the symbol. -/
def c7m3 : Model := (undoKeyStep c7m2).1

/-- Fourth step: a plain text edit after the undo. -/
def c7m4 : Model := (typingStep c7m3 ("7+1".data) 3).1

/-- C7 counterexample: a plain text edit is a sheet mutation that is not
an undo/redo operation, yet performed right after a successful undo it
leaves the RedoStack intact and `redo` still succeeds — contradicting
the claim that any such mutation clears the RedoStack and makes redo
unavailable. -/
theorem edit_after_undo_keeps_redo :
    (undoM c7m2).2 = true ∧
    c7m4 = (typingStep c7m3 ("7+1".data) 3).1 ∧
    c7m4.inputs.map (fun ti => ti.value) ≠ c7m3.inputs.map (fun ti => ti.value) ∧
    (∃ us, c7m4.undoSystem = some us ∧ us.redoStack ≠ []) ∧
    (redoM c7m4).2 = true := by
  refine ⟨by decide, rfl, by decide, ?_, by decide⟩
  refine ⟨⟨[], [createSnapshot c7m2], 50⟩, by decide, by decide⟩

/-- The undo system produced by a successful `saveState`: snapshot
pushed (bounded) and redo stack cleared. -/
def savedSys (m : Model) (us : UndoSystem) : UndoSystem where
  undoStack := trimStack us.maxSize (us.undoStack ++ [createSnapshot m])
  redoStack := []
  maxSize := us.maxSize

/-- C7 amended: the mutations that run `saveState` (line insertion,
deletion, clear, paste, template, completion/symbol insertion,
reference-click insertion) clear the RedoStack; a plain text edit does
not touch the undo system at all, so the RedoStack survives it and redo
can remain available. -/
theorem saveState_clears_redo (m : Model) (us : UndoSystem) (v : Str) (cur : Nat)
    (h : m.undoSystem = some us) :
    (∃ us', (saveStateM m).undoSystem = some us' ∧ us'.redoStack = []) ∧
    ((typingStep m v cur).1).undoSystem = m.undoSystem := by
  refine ⟨⟨savedSys m us, ?_, rfl⟩, ?_⟩
  · simp [saveStateM, h, savedSys]
  · simp only [typingStep, afterKeyDispatch]
    split
    · rfl
    · split <;> rfl

theorem saveState_clears_redo_witness :
    ((∃ us', (saveStateM c7m4).undoSystem = some us' ∧ us'.redoStack = []) ∧
      ((typingStep c7m4 ("8".data) 1).1).undoSystem = c7m4.undoSystem) :=
  saveState_clears_redo c7m4 ⟨[], [createSnapshot c7m2], 50⟩ ("8".data) 1 (by decide)

/-! ### Claim C2: the classifier decides by an ordered rule list -/

/-- Sanity condition on the oracle-supplied name lists: no variable name
longer than three characters consists purely of whitespace (libqalculate
names are identifiers).  Without it, a pathological all-whitespace name
could fire rule 7 on whitespace-only input before the specification's
rule 1. -/
def goodNames (env : CalcEnv) : Prop :=
  ∀ v ∈ env.advancedFunctions, 3 < v.length → ∃ c ∈ v, isGoSpace c = false

instance (env : CalcEnv) : Decidable (goodNames env) := by
  unfold goodNames; infer_instance

theorem strContains_false_of_ws {input sub : Str}
    (hall : ∀ x ∈ input, isGoSpace x = true) {c : Char} (hcsub : c ∈ sub)
    (hc : isGoSpace c = false) : strContains input sub = false := by
  cases hcg : strContains input sub with
  | false => rfl
  | true =>
    have h1 := hall c (strContains_mem hcg c hcsub)
    rw [hc] at h1; cases h1

theorem checkFalse_of_ws (env : CalcEnv) (hgood : goodNames env) (input : Str)
    (hall : ∀ x ∈ input, isGoSpace x = true) :
    CheckForCalculation env input = false := by
  have g2 : strContains input ("http://".data) = false :=
    strContains_false_of_ws hall (c := 'h') (by decide) (by decide)
  have g3 : input.any Char.isDigit = false := by
    cases hcg : input.any Char.isDigit with
    | false => rfl
    | true =>
      obtain ⟨x, hx, hdx⟩ := List.any_eq_true.mp hcg
      rw [ws_not_digit (hall x hx)] at hdx; cases hdx
  have g4 : ¬(input = ("tutorial()".data)) := by
    intro he
    have h1 := hall 't' (by rw [he]; decide)
    exact absurd h1 (by decide)
  have g5 : operators.any (fun op => strContains input op) = false := by
    cases hcg : operators.any (fun op => strContains input op) with
    | false => rfl
    | true =>
      obtain ⟨op, hop, hco⟩ := List.any_eq_true.mp hcg
      have hsub : op.all isGoSpace = true :=
        List.all_eq_true.mpr (fun c hc => hall c (strContains_mem hco c hc))
      have hops : ∀ o ∈ operators, o.all isGoSpace = false := by decide
      rw [hops op hop] at hsub; cases hsub
  have g6 : (env.basicFunctions ++ env.advancedFunctions).any
      (fun fct => strContains input (fct ++ ("(".data))) = false := by
    cases hcg : (env.basicFunctions ++ env.advancedFunctions).any
        (fun fct => strContains input (fct ++ ("(".data))) with
    | false => rfl
    | true =>
      obtain ⟨fct, _, hco⟩ := List.any_eq_true.mp hcg
      have hmem := strContains_mem hco '(' (List.mem_append_right _ (by decide))
      exact absurd (hall '(' hmem) (by decide)
  have g7 : env.advancedFunctions.any
      (fun v => decide (3 < v.length) && strContains input v) = false := by
    cases hcg : env.advancedFunctions.any
        (fun v => decide (3 < v.length) && strContains input v) with
    | false => rfl
    | true =>
      obtain ⟨v, hv, hvv⟩ := List.any_eq_true.mp hcg
      rw [Bool.and_eq_true] at hvv
      obtain ⟨c, hcv, hcns⟩ := hgood v hv (of_decide_eq_true hvv.1)
      have h1 := hall c (strContains_mem hvv.2 c hcv)
      rw [hcns] at h1; cases h1
  have g8 : ("ans".data).isPrefixOf input = false := by
    cases hcg : ("ans".data).isPrefixOf input with
    | false => rfl
    | true =>
      have hmem := isPrefixOf_mem _ _ hcg 'a' (by decide)
      exact absurd (hall 'a' hmem) (by decide)
  cases hg1 : (input.isEmpty || (replaceAll ([' ']) ([]) input).isEmpty) with
  | true => simp [CheckForCalculation, hg1]
  | false => simp [CheckForCalculation, hg1, g2, g3, g4, g5, g6, g7, g8]

theorem checkForCalculation_eq_spec (env : CalcEnv) (hgood : goodNames env)
    (input : Str) : CheckForCalculation env input = shouldEvaluateSpec env input := by
  cases hws : input.all isGoSpace with
  | true =>
    rw [checkFalse_of_ws env hgood input (List.all_eq_true.mp hws)]
    simp [shouldEvaluateSpec, wsOnly, hws]
  | false =>
    have hie : input.isEmpty = false := by
      cases input with
      | nil => rw [List.all_nil] at hws; cases hws
      | cons a as => rfl
    have hfil : (input.filter (fun c => !(c == ' '))).isEmpty = false := by
      cases hf : (input.filter (fun c => !(c == ' '))).isEmpty with
      | false => rfl
      | true =>
        have hemp := List.isEmpty_iff.mp hf
        have hallsp : input.all isGoSpace = true := by
          apply List.all_eq_true.mpr
          intro x hx
          have hxsp : ¬((!(x == ' ')) = true) := by
            intro hxne
            have hmem : x ∈ input.filter (fun c => !(c == ' ')) :=
              List.mem_filter.mpr ⟨hx, hxne⟩
            rw [hemp] at hmem; cases hmem
          have hx' : x = ' ' := by simpa using hxsp
          rw [hx']; decide
        rw [hallsp] at hws; cases hws
    have h1 : wsOnly input = false := by rw [wsOnly, hie, hws]; rfl
    have h2 : (input.isEmpty || (replaceAll ([' ']) ([]) input).isEmpty) = false := by
      rw [replaceAll_space, hie, hfil]; rfl
    rw [CheckForCalculation, shouldEvaluateSpec, h1, h2]

/-- C2: `CheckForCalculation` decides by the first matching rule of the
ordered list — empty/whitespace-only false; `http://` false; any digit
true; `tutorial()` false; any of `+ - * / = ( )` true; a known function
name followed by `(` true; a known variable name longer than 3
characters true; `ans` as a text head true; otherwise false — and in
particular `hello world` and `sin` classify false and `sin(30)` true.
The two hypotheses say the oracle-supplied name lists contain no
all-whitespace long name and no long name occurring in `hello world`. -/
theorem classifier_first_match (env : CalcEnv) (input : Str) (hgood : goodNames env)
    (hhello : ∀ v ∈ env.advancedFunctions, 3 < v.length →
      strContains ("hello world".data) v = false) :
    CheckForCalculation env input = shouldEvaluateSpec env input ∧
    CheckForCalculation env ("hello world".data) = false ∧
    CheckForCalculation env ("sin".data) = false ∧
    CheckForCalculation env ("sin(30)".data) = true := by
  refine ⟨checkForCalculation_eq_spec env hgood input, ?_, ?_, ?_⟩
  · have gf : (env.basicFunctions ++ env.advancedFunctions).any
        (fun fct => strContains ("hello world".data) (fct ++ ("(".data))) = false := by
      cases hcg : (env.basicFunctions ++ env.advancedFunctions).any
          (fun fct => strContains ("hello world".data) (fct ++ ("(".data))) with
      | false => rfl
      | true =>
        obtain ⟨fct, _, hco⟩ := List.any_eq_true.mp hcg
        have hmem := strContains_mem hco '(' (List.mem_append_right _ (by decide))
        exact absurd hmem (by decide)
    have gv : env.advancedFunctions.any
        (fun v => decide (3 < v.length) && strContains ("hello world".data) v) = false := by
      cases hcg : env.advancedFunctions.any
          (fun v => decide (3 < v.length) && strContains ("hello world".data) v) with
      | false => rfl
      | true =>
        obtain ⟨v, hv, hvv⟩ := List.any_eq_true.mp hcg
        rw [Bool.and_eq_true] at hvv
        have h1 := hhello v hv (of_decide_eq_true hvv.1)
        rw [h1] at hvv
        exact absurd hvv.2 (by decide)
    simp only [CheckForCalculation, gf, gv]
    decide
  · have gf : (env.basicFunctions ++ env.advancedFunctions).any
        (fun fct => strContains ("sin".data) (fct ++ ("(".data))) = false := by
      cases hcg : (env.basicFunctions ++ env.advancedFunctions).any
          (fun fct => strContains ("sin".data) (fct ++ ("(".data))) with
      | false => rfl
      | true =>
        obtain ⟨fct, _, hco⟩ := List.any_eq_true.mp hcg
        have hmem := strContains_mem hco '(' (List.mem_append_right _ (by decide))
        exact absurd hmem (by decide)
    have gv : env.advancedFunctions.any
        (fun v => decide (3 < v.length) && strContains ("sin".data) v) = false := by
      cases hcg : env.advancedFunctions.any
          (fun v => decide (3 < v.length) && strContains ("sin".data) v) with
      | false => rfl
      | true =>
        obtain ⟨v, _, hvv⟩ := List.any_eq_true.mp hcg
        rw [Bool.and_eq_true] at hvv
        have hlen := strContains_length hvv.2
        have hgt := of_decide_eq_true hvv.1
        simp at hlen
        omega
    simp only [CheckForCalculation, gf, gv]
    decide
  · rfl

theorem classifier_first_match_witness :
    CheckForCalculation witnessEnv ("2+2".data) = shouldEvaluateSpec witnessEnv ("2+2".data) ∧
    CheckForCalculation witnessEnv ("hello world".data) = false ∧
    CheckForCalculation witnessEnv ("sin".data) = false ∧
    CheckForCalculation witnessEnv ("sin(30)".data) = true :=
  classifier_first_match witnessEnv ("2+2".data) (by decide) (by decide)

/-! ### Claim C3: reference resolution order and word boundaries -/

theorem bareAnsAuxF_id (rep : Str) : ∀ (n : Nat) (prev : Option Char) (s : Str),
    s.length ≤ n → hasBareAnsAux prev s = false → bareAnsAuxF rep n prev s = s := by
  intro n
  induction n with
  | zero =>
    intro prev s hlen _
    rw [List.length_eq_zero.mp (Nat.le_zero.mp hlen)]
    rfl
  | succ n ih =>
    intro prev s hlen hno
    match s with
    | [] => rfl
    | c :: cs =>
      rw [hasBareAnsAux, Bool.or_eq_false_iff] at hno
      rw [bareAnsAuxF, if_neg (by simp [hno.1])]
      rw [ih (some c) cs (Nat.le_of_succ_le_succ hlen) hno.2]

theorem replaceBareAns_id {s : Str} (rep : Str) (h : hasBareAns s = false) :
    replaceBareAns rep s = s :=
  bareAnsAuxF_id rep s.length none s (Nat.le_refl _) h

theorem expandTemplateF_no_dollar (matched : Str) : ∀ (n : Nat) (s : Str),
    s.length ≤ n → ('$' : Char) ∉ s → expandTemplateF matched n s = s := by
  intro n
  induction n with
  | zero =>
    intro s hlen _
    rw [List.length_eq_zero.mp (Nat.le_zero.mp hlen)]
    rfl
  | succ n ih =>
    intro s hlen hd
    match s with
    | [] => rfl
    | c :: cs =>
      have hc : ¬(c = '$') := fun he => hd (by rw [he] at *; exact List.mem_cons_self _ _)
      rw [expandTemplateF, if_neg hc]
      rw [ih cs (Nat.le_of_succ_le_succ hlen)
        (fun hm => hd (List.mem_cons_of_mem c hm))]

theorem expandAnsTemplate_no_dollar (rep : Str) :
    ('$' : Char) ∉ rep → expandAnsTemplate rep = rep :=
  expandTemplateF_no_dollar ("ans".data) rep.length rep (Nat.le_refl _)

/-- C3 counterexample: the original claim says every word-boundary bare
`ans` is replaced *with the nearest non-empty result*, but Go's
`ReplaceAllString` treats the replacement as a `$`-template — and `$` is
reachable in results, since `postString` maps `USD` back to `$`.  With
`priorResults = ["$1"]` and `currentIndex = 1`, the nearest non-empty
result is `$1`, yet resolving the text `ans` yields the empty string
(`$1` references a capture group `\bans\b` does not have), not `$1`. -/
theorem bare_ans_dollar_counterexample :
    lastNonEmpty [("$1".data)] 1 = some ("$1".data) ∧
    resolveAns [("$1".data)] 1 ("ans".data) = ([] : Str) ∧
    ([] : Str) ≠ ("$1".data) := by
  decide

/-- C3 amended: numbered references are replaced literally before the
bare reference and only over prior lines, exactly as claimed; the bare
word-boundary `ans` is then replaced by the regexp-template expansion of
the nearest non-empty result scanning `currentIndex-1` down to `0` (or
of `"0"` when none exists) — `$$` gives a literal `$`, `$0` gives the
matched `ans`, any other `$`-reference expands to the empty string since
`\bans\b` has no capture groups, and a `$`-free result is inserted
literally, as originally claimed; the code agrees with `resolveSpec`,
and the word-boundary match never fires inside a longer identifier:
replacing bare `ans` in `answer` (by any `rep`) leaves the text
unchanged. -/
theorem resolve_matches_spec (results : List Str) (currentIndex : Nat) (text : Str)
    (rep : Str) (h : currentIndex ≤ results.length) :
    resolveAns results currentIndex text = resolveSpec results currentIndex text ∧
    replaceBareAns rep ("ans".data) = expandAnsTemplate rep ∧
    (('$' : Char) ∉ rep → expandAnsTemplate rep = rep) ∧
    replaceBareAns rep ("answer".data) = ("answer".data) ∧
    hasBareAns ("answer".data) = false := by
  refine ⟨?_, ?_, expandAnsTemplate_no_dollar rep, ?_, by decide⟩
  · rw [resolveAns, resolveSpec, Nat.min_eq_left h]
    set t1 := (List.range currentIndex).foldl
      (fun acc i =>
        let ansPattern := ("ans".data) ++ (Nat.repr (i + 1)).data
        if results.getD i [] ≠ [] then replaceAll ansPattern (results.getD i []) acc
        else replaceAll ansPattern ("0".data) acc)
      text with ht1
    cases hb : hasBareAns t1 with
    | true =>
      cases hl : lastNonEmpty results currentIndex with
      | some r => simp [hl]
      | none => simp [hl]
    | false =>
      rw [if_neg (by simp [hb])]
      rw [replaceBareAns_id _ hb]
  · have h1 : replaceBareAns rep ("ans".data) = expandAnsTemplate rep ++ ([] : Str) := rfl
    rw [h1, List.append_nil]
  · exact replaceBareAns_id rep (by decide)

theorem resolve_matches_spec_witness :
    (resolveAns [("4".data)] 1 ("ans1+1".data) = resolveSpec [("4".data)] 1 ("ans1+1".data) ∧
      replaceBareAns ("7".data) ("ans".data) = expandAnsTemplate ("7".data) ∧
      (('$' : Char) ∉ ("7".data) → expandAnsTemplate ("7".data) = ("7".data)) ∧
      replaceBareAns ("7".data) ("answer".data) = ("answer".data) ∧
      hasBareAns ("answer".data) = false) ∧
    resolveAns [("4".data)] 1 ("ans1+1".data) = ("4+1".data) ∧
    resolveAns [("4".data)] 1 ("ans*2".data) = ("4*2".data) :=
  ⟨resolve_matches_spec [("4".data)] 1 ("ans1+1".data) ("7".data) (by decide), by decide,
    by decide⟩

/-! ### Claim C4: the cascade re-submits every later eligible line -/

theorem getD_set_ne {α : Type} (l : List α) (i j : Nat) (a d : α) (h : i ≠ j) :
    (l.set i a).getD j d = l.getD j d := by
  rw [List.getD_eq_getElem?_getD, List.getD_eq_getElem?_getD, List.getElem?_set_ne h]

theorem getD_set_self {α : Type} (l : List α) (i : Nat) (a d : α) (h : i < l.length) :
    (l.set i a).getD i d = a := by
  rw [List.getD_eq_getElem?_getD, List.getElem?_set_self h]
  rfl

theorem cascadeLoop_cmds (inputs : List TextInput) (results : List Str) :
    ∀ (l : List Nat) (b b₀ : List Bool), l.Nodup →
      (∀ j ∈ l, b.getD j false = b₀.getD j false) →
      (cascadeLoop inputs results l b).2 =
        (l.filter (cascadeGuard inputs b₀)).map
          (fun j => Cmd.calc (inputs.getD j default).value results j) := by
  intro l
  induction l with
  | nil => intro b b₀ _ _; rfl
  | cons i rest ih =>
    intro b b₀ hnd hagree
    have hg : cascadeGuard inputs b i = cascadeGuard inputs b₀ i := by
      unfold cascadeGuard
      rw [hagree i (List.mem_cons_self i rest)]
    rw [List.nodup_cons] at hnd
    cases hgi : cascadeGuard inputs b₀ i with
    | true =>
      rw [cascadeLoop, if_pos (hg.trans hgi), List.filter_cons_of_pos hgi, List.map_cons]
      have hagree' : ∀ j ∈ rest, (b.set i true).getD j false = b₀.getD j false := by
        intro j hj
        rw [getD_set_ne _ _ _ _ _ (fun he => hnd.1 (by rw [he]; exact hj))]
        exact hagree j (List.mem_cons_of_mem _ hj)
      show Cmd.calc (inputs.getD i default).value results i ::
          (cascadeLoop inputs results rest (b.set i true)).2 = _
      rw [ih (b.set i true) b₀ hnd.2 hagree']
    | false =>
      rw [cascadeLoop, if_neg (by simp [hg.trans hgi]), List.filter_cons_of_neg (by simp [hgi])]
      exact ih b b₀ hnd.2 (fun j hj => hagree j (List.mem_cons_of_mem _ hj))

theorem handleCalc_results (m : Model) (msg : CalcMsg)
    (h : msg.index < m.results.length) :
    (handleCalculationMessage m msg).1.results = m.results.set msg.index msg.result := by
  rw [handleCalculationMessage, if_pos h]

/-- C4: when a completion for line `index` is accepted (its index is in
bounds) its result is recorded, and the commands dispatched by the
handler are exactly one re-submission for every line `j > index` whose
text is non-empty and whose calculating flag (after clearing line
`index`) is false — no other condition, in particular no check whether
line `j` references `ans` or `ansN`. -/
theorem cascade_resubmits_all (m : Model) (msg : CalcMsg)
    (h : msg.index < m.results.length) :
    (handleCalculationMessage m msg).1.results = m.results.set msg.index msg.result ∧
    (handleCalculationMessage m msg).2 =
      ((List.range' (msg.index + 1) (m.inputs.length - (msg.index + 1))).filter
          (cascadeGuard m.inputs (m.calculating.set msg.index false))).map
        (fun j => Cmd.calc (m.inputs.getD j default).value
          (m.results.set msg.index msg.result) j) := by
  constructor
  · exact handleCalc_results m msg h
  · rw [handleCalculationMessage, if_pos h]
    exact cascadeLoop_cmds _ _ _ _ _ (List.nodup_range' _ _) (fun _ _ => rfl)

/-- A concrete three-line model used to witness the cascade theorem:
line 1 is non-empty and idle, line 2 is non-empty but already
calculating, so only line 1 is re-submitted. -/
def cascadeWitnessModel : Model where
  inputs := [⟨("1".data), 1, true⟩, ⟨("ans".data), 0, false⟩, ⟨("ans*2".data), 0, false⟩]
  results := [[], [], []]
  calculating := [true, false, true]
  focusedIdx := 0
  undoSystem := some NewUndoSystem

theorem cascade_resubmits_all_witness :
    (handleCalculationMessage cascadeWitnessModel ⟨0, ("1".data)⟩).1.results =
      cascadeWitnessModel.results.set 0 ("1".data) ∧
    (handleCalculationMessage cascadeWitnessModel ⟨0, ("1".data)⟩).2 =
      ((List.range' 1 2).filter
          (cascadeGuard cascadeWitnessModel.inputs
            (cascadeWitnessModel.calculating.set 0 false))).map
        (fun j => Cmd.calc (cascadeWitnessModel.inputs.getD j default).value
          (cascadeWitnessModel.results.set 0 ("1".data)) j) :=
  cascade_resubmits_all cascadeWitnessModel ⟨0, ("1".data)⟩ (by decide)

/-! ### Claim C1: no token check — last completed wins -/

/-- C1 amended: processing any in-bounds completion message always
overwrites the line's stored result with the message's result — the
handler performs no token or staleness check whatsoever, so the stored
result is that of the last *completed* evaluation, not of the last
*submitted* one. -/
theorem completion_last_completed_wins (m : Model) (msg : CalcMsg)
    (h : msg.index < m.results.length) :
    ((handleCalculationMessage m msg).1).results.getD msg.index [] = msg.result := by
  rw [handleCalc_results m msg h]
  exact getD_set_self _ _ _ _ h

theorem completion_last_completed_wins_witness :
    ((handleCalculationMessage initialModel ⟨0, ("5".data)⟩).1).results.getD 0 [] =
      ("5".data) :=
  completion_last_completed_wins initialModel ⟨0, ("5".data)⟩ (by decide)

/-- A concrete environment for the stale-completion trace: the oracle
evaluates `1+1` to `2` and `1+1+2` to `4`. -/
def staleEnv : CalcEnv where
  basicFunctions := []
  advancedFunctions := []
  oracle := fun s =>
    if s = ("1+1".data) then some ("2".data)
    else if s = ("1+1+2".data) then some ("4".data)
    else some ("0".data)

/-- Trace state 1: the user types `1+1`; an evaluation of `1+1` against
results `[""]` is dispatched for line 0. -/
def cm1 : Model := (typingStep initialModel ("1+1".data) 3).1

/-- Trace state 2: Ctrl+P inserts `π` (saving undo state); the line is
already calculating, so nothing new is dispatched. -/
def cm2 : Model := (insertSymbolStep cm1 ("π".data)).1

/-- Trace state 3: Ctrl+Z restores `1+1`; the restore resets the
calculating flag while the first evaluation is still in flight, and the
fall-through trigger of `Update` dispatches a second evaluation of
`1+1`. -/
def cm3 : Model := (undoKeyStep cm2).1

/-- Trace state 4: one of the two identical pending `1+1` evaluations
completes with `2`. -/
def cm4 : Model := (handleCalculationMessage cm3 (mkMsg staleEnv ("1+1".data) [[]] 0)).1

/-- Trace state 5: the user edits line 0 to `1+1+2`; a new evaluation is
dispatched (the last submission for line 0). -/
def cm5 : Model := (typingStep cm4 ("1+1+2".data) 5).1

/-- Trace state 6: the last submission completes with `4`; the stale
`1+1` evaluation dispatched back at state 1 is still pending. -/
def cm6 : Model := (handleCalculationMessage cm5 (mkMsg staleEnv ("1+1+2".data) [("2".data)] 0)).1

/-- Trace state 7: the stale completion is processed. -/
def cm7 : Model := (handleCalculationMessage cm6 (mkMsg staleEnv ("1+1".data) [[]] 0)).1

/-- C1 counterexample: in the reachable state `cm6` line 0 stores `4`,
the result of the last submitted evaluation (`1+1+2`), while a stale
completion — the evaluation of the old text `1+1`, dispatched before
that submission and orphaned by the undo — is still pending.  Processing
that stale completion does not leave the line's result unchanged: it
overwrites `4` with `2`, so the stored result is that of the last
completed evaluation, not of the last submitted one. -/
theorem stale_completion_overwrites :
    SysReach staleEnv (initialModel, []) (cm6, [Cmd.calc ("1+1".data) [[]] 0]) ∧
    cm6.results = [("4".data)] ∧
    SysStep staleEnv (cm6, [Cmd.calc ("1+1".data) [[]] 0]) (cm7, []) ∧
    cm7.results = [("2".data)] ∧
    cm7.results ≠ cm6.results := by
  refine ⟨?_, by decide, ?_, by decide, by decide⟩
  · refine Relation.ReflTransGen.head (SysStep.typing initialModel [] ("1+1".data) 3) ?_
    refine Relation.ReflTransGen.head (SysStep.insertSym cm1 _ ("π".data)) ?_
    refine Relation.ReflTransGen.head (SysStep.undoKey cm2 _) ?_
    refine Relation.ReflTransGen.head
      (SysStep.complete cm3 [] [Cmd.calc ("1+1".data) [[]] 0] ("1+1".data) [[]] 0) ?_
    refine Relation.ReflTransGen.head (SysStep.typing cm4 _ ("1+1+2".data) 5) ?_
    refine Relation.ReflTransGen.head
      (SysStep.complete cm5 [Cmd.calc ("1+1".data) [[]] 0] [] ("1+1+2".data) [("2".data)] 0) ?_
    exact Relation.ReflTransGen.refl
  · exact SysStep.complete cm6 [] [] ("1+1".data) [[]] 0

/-! ### Undo-engine invariants (Claims C6 and C8) -/

theorem getD_map_value : ∀ (l : List TextInput) (i : Nat),
    (l.map (fun ti => ti.value)).getD i [] = (l.getD i default).value := by
  intro l
  induction l with
  | nil => intro i; cases i <;> rfl
  | cons a as ih =>
    intro i
    cases i with
    | zero => rfl
    | succ n => exact ih n

theorem mkRestoredInput_value (st : UndoState) (i : Nat) (v : Str) :
    (mkRestoredInput st i v).value = v := by
  unfold mkRestoredInput; split <;> rfl

theorem mkRestoredInput_cursor_le (st : UndoState) (i : Nat) (v : Str) :
    (mkRestoredInput st i v).cursor ≤ v.length := by
  unfold mkRestoredInput
  split
  · simp only
    split
    · omega
    · exact Nat.le_refl _
  · exact Nat.le_refl _

theorem rebuildInputs_length (st : UndoState) : ∀ (l : List Str) (i : Nat),
    (rebuildInputs st i l).length = l.length := by
  intro l
  induction l with
  | nil => intro i; rfl
  | cons v vs ih => intro i; simp [rebuildInputs, ih]

theorem rebuildInputs_map_value (st : UndoState) : ∀ (l : List Str) (i : Nat),
    (rebuildInputs st i l).map (fun ti => ti.value) = l := by
  intro l
  induction l with
  | nil => intro i; rfl
  | cons v vs ih =>
    intro i
    simp [rebuildInputs, mkRestoredInput_value, ih]

theorem rebuildInputs_getD (st : UndoState) : ∀ (l : List Str) (i k : Nat), k < l.length →
    (rebuildInputs st i l).getD k default = mkRestoredInput st (i + k) (l.getD k []) := by
  intro l
  induction l with
  | nil => intro i k hk; cases hk
  | cons v vs ih =>
    intro i k hk
    cases k with
    | zero => rfl
    | succ n =>
      have h1 : i + (n + 1) = (i + 1) + n := by omega
      rw [h1]
      exact ih (i + 1) n (Nat.lt_of_succ_lt_succ hk)

theorem createSnapshot_wf {m : Model} (h : WF m) : SnapWF (createSnapshot m) := by
  obtain ⟨h0, hf, hc, hr, _⟩ := h
  refine ⟨by simpa [createSnapshot] using h0, by simpa [createSnapshot] using hf, ?_, ?_⟩
  · show (if m.focusedIdx < m.inputs.length then (m.inputs.getD m.focusedIdx default).cursor
      else 0) ≤ _
    rw [if_pos hf]
    show _ ≤ ((m.inputs.map (fun ti => ti.value)).getD m.focusedIdx []).length
    rw [getD_map_value]
    exact hc m.focusedIdx hf
  · simpa [createSnapshot] using hr

theorem restoreStateM_undoSystem (m : Model) (st : UndoState) :
    (restoreStateM m st).undoSystem = m.undoSystem := rfl

theorem restoreStateM_inputs (m : Model) (st : UndoState) :
    (restoreStateM m st).inputs = rebuildInputs st 0 st.inputValues := rfl

theorem restoreStateM_results (m : Model) (st : UndoState) :
    (restoreStateM m st).results = st.results := rfl

theorem restoreStateM_calculating (m : Model) (st : UndoState) :
    (restoreStateM m st).calculating =
      List.replicate (rebuildInputs st 0 st.inputValues).length false := rfl

theorem restoreStateM_focusedIdx (m : Model) (st : UndoState) :
    (restoreStateM m st).focusedIdx =
      if (rebuildInputs st 0 st.inputValues).length ≤ st.focusedIdx then
        (rebuildInputs st 0 st.inputValues).length - 1
      else st.focusedIdx := rfl

theorem createSnapshot_inputValues (m : Model) :
    (createSnapshot m).inputValues = m.inputs.map (fun ti => ti.value) := rfl

theorem createSnapshot_results (m : Model) :
    (createSnapshot m).results = m.results := rfl

theorem createSnapshot_focusedIdx (m : Model) :
    (createSnapshot m).focusedIdx = m.focusedIdx := rfl

theorem createSnapshot_cursorPos (m : Model) :
    (createSnapshot m).cursorPos =
      if m.focusedIdx < m.inputs.length then (m.inputs.getD m.focusedIdx default).cursor
      else 0 := rfl

theorem mkRestoredInput_focused (st : UndoState) (v : Str) :
    mkRestoredInput st st.focusedIdx v =
      { value := v,
        cursor := if st.cursorPos ≤ v.length then st.cursorPos else v.length,
        focused := true } := by
  unfold mkRestoredInput
  rw [if_pos rfl]

theorem restore_wf {st : UndoState} (h : SnapWF st) (m : Model) :
    WF (restoreStateM m st) := by
  obtain ⟨h0, hf, hcur, hr⟩ := h
  have hlen : (rebuildInputs st 0 st.inputValues).length = st.inputValues.length :=
    rebuildInputs_length st st.inputValues 0
  unfold WF
  rw [restoreStateM_inputs, restoreStateM_results, restoreStateM_calculating,
    restoreStateM_focusedIdx, hlen]
  refine ⟨h0, ?_, ?_, by rw [hr], by rw [List.length_replicate]⟩
  · split
    · omega
    · omega
  · intro i hi
    rw [rebuildInputs_getD st st.inputValues 0 i (by omega), mkRestoredInput_value]
    exact mkRestoredInput_cursor_le st (0 + i) (st.inputValues.getD i [])

theorem restore_snapshot_sheet {m : Model} (h : WF m) (base : Model) :
    sheetOf (restoreStateM base (createSnapshot m)) = sheetOf m := by
  obtain ⟨h0, hf, hc, hr, hcl⟩ := h
  have hmaplen : (m.inputs.map (fun ti => ti.value)).length = m.inputs.length :=
    List.length_map _ _
  have hlen : (rebuildInputs (createSnapshot m) 0 (createSnapshot m).inputValues).length =
      m.inputs.length := by
    rw [rebuildInputs_length, createSnapshot_inputValues, hmaplen]
  have hflt : m.focusedIdx < (createSnapshot m).inputValues.length := by
    rw [createSnapshot_inputValues, hmaplen]; exact hf
  have hfoc : (restoreStateM base (createSnapshot m)).focusedIdx = m.focusedIdx := by
    rw [restoreStateM_focusedIdx, hlen, createSnapshot_focusedIdx, if_neg (by omega)]
  have hvals : (restoreStateM base (createSnapshot m)).inputs.map (fun ti => ti.value) =
      m.inputs.map (fun ti => ti.value) := by
    rw [restoreStateM_inputs, rebuildInputs_map_value, createSnapshot_inputValues]
  have hres : (restoreStateM base (createSnapshot m)).results = m.results := by
    rw [restoreStateM_results, createSnapshot_results]
  have hcursor : ((restoreStateM base (createSnapshot m)).inputs.getD
      (restoreStateM base (createSnapshot m)).focusedIdx default).cursor =
      (m.inputs.getD m.focusedIdx default).cursor := by
    rw [hfoc, restoreStateM_inputs,
      rebuildInputs_getD (createSnapshot m) (createSnapshot m).inputValues 0 m.focusedIdx hflt,
      Nat.zero_add]
    have hfeq : mkRestoredInput (createSnapshot m) m.focusedIdx
        ((createSnapshot m).inputValues.getD m.focusedIdx []) =
        mkRestoredInput (createSnapshot m) (createSnapshot m).focusedIdx
          ((createSnapshot m).inputValues.getD m.focusedIdx []) := by
      rw [createSnapshot_focusedIdx]
    rw [hfeq, mkRestoredInput_focused]
    have hv : (createSnapshot m).inputValues.getD m.focusedIdx [] =
        (m.inputs.getD m.focusedIdx default).value := by
      rw [createSnapshot_inputValues]
      exact getD_map_value m.inputs m.focusedIdx
    show (if (createSnapshot m).cursorPos ≤ _ then (createSnapshot m).cursorPos else _) = _
    rw [hv, createSnapshot_cursorPos, if_pos hf, if_pos (hc m.focusedIdx hf)]
  unfold sheetOf
  rw [hvals, hres, hcursor, hfoc]

/-- The full invariant of reachable models: well-formed sheet, undo
system present with capacity 50, both stacks bounded and holding only
well-formed snapshots. -/
def Inv (m : Model) : Prop :=
  WF m ∧ ∃ us, m.undoSystem = some us ∧ us.maxSize = 50 ∧
    us.undoStack.length ≤ 50 ∧ us.redoStack.length ≤ 50 ∧
    (∀ s ∈ us.undoStack, SnapWF s) ∧ (∀ s ∈ us.redoStack, SnapWF s)

theorem trimStack_length {k : Nat} (stack : List UndoState)
    (h : stack.length ≤ k + 1) : (trimStack k stack).length ≤ k := by
  unfold trimStack
  split
  · rw [List.length_drop]; omega
  · omega

theorem trimStack_subset (k : Nat) (stack : List UndoState) :
    ∀ s ∈ trimStack k stack, s ∈ stack := by
  unfold trimStack
  split
  · exact fun s hs => List.drop_subset 1 stack hs
  · exact fun s hs => hs

/-- The undo system after a successful `undo`: current snapshot pushed
to the (bounded) redo stack, newest undo entry popped. -/
def undoneSys (m : Model) (us : UndoSystem) : UndoSystem where
  undoStack := us.undoStack.dropLast
  redoStack := trimStack us.maxSize (us.redoStack ++ [createSnapshot m])
  maxSize := us.maxSize

/-- The undo system after a successful `redo`, symmetric to
`undoneSys`. -/
def redoneSys (m : Model) (us : UndoSystem) : UndoSystem where
  undoStack := trimStack us.maxSize (us.undoStack ++ [createSnapshot m])
  redoStack := us.redoStack.dropLast
  maxSize := us.maxSize

theorem saveStateM_some {m : Model} {us : UndoSystem} (h : m.undoSystem = some us) :
    saveStateM m = { m with undoSystem := some (savedSys m us) } := by
  unfold saveStateM
  rw [h]
  rfl

theorem undoM_empty {m : Model} {us : UndoSystem} (h : m.undoSystem = some us)
    (hst : us.undoStack = []) : undoM m = (m, false) := by
  unfold undoM
  rw [h]
  exact dif_pos hst

theorem redoM_empty {m : Model} {us : UndoSystem} (h : m.undoSystem = some us)
    (hst : us.redoStack = []) : redoM m = (m, false) := by
  unfold redoM
  rw [h]
  exact dif_pos hst

theorem undoM_eq {m : Model} {us : UndoSystem} (h : m.undoSystem = some us)
    (hne : us.undoStack ≠ []) :
    undoM m = (restoreStateM { m with undoSystem := some (undoneSys m us) }
      (us.undoStack.getLast hne), true) := by
  unfold undoM
  rw [h]
  exact dif_neg hne

theorem redoM_eq {m : Model} {us : UndoSystem} (h : m.undoSystem = some us)
    (hne : us.redoStack ≠ []) :
    redoM m = (restoreStateM { m with undoSystem := some (redoneSys m us) }
      (us.redoStack.getLast hne), true) := by
  unfold redoM
  rw [h]
  exact dif_neg hne

theorem inv_save {m : Model} (h : Inv m) : Inv (saveStateM m) := by
  obtain ⟨hwf, us, hus, hmax, hlen, _, hsnap, _⟩ := h
  rw [saveStateM_some hus]
  refine ⟨hwf, savedSys m us, rfl, hmax, ?_, by simp [savedSys], ?_, by simp [savedSys]⟩
  · show (trimStack us.maxSize (us.undoStack ++ [createSnapshot m])).length ≤ 50
    rw [hmax] at *
    exact trimStack_length _ (by simp; omega)
  · intro s hs
    have hs' := trimStack_subset _ _ s hs
    rcases List.mem_append.mp hs' with hmem | hmem
    · exact hsnap s hmem
    · rw [List.mem_singleton.mp hmem]
      exact createSnapshot_wf hwf

theorem inv_undo {m : Model} (h : Inv m) : Inv (undoM m).1 := by
  obtain ⟨hwf, us, hus, hmax, hlen, hrlen, hsnap, hrsnap⟩ := h
  by_cases hst : us.undoStack = []
  · rw [undoM_empty hus hst]
    exact ⟨hwf, us, hus, hmax, hlen, hrlen, hsnap, hrsnap⟩
  · rw [undoM_eq hus hst]
    show Inv (restoreStateM _ (us.undoStack.getLast hst))
    have hlast : us.undoStack.getLast hst ∈ us.undoStack := List.getLast_mem hst
    refine ⟨restore_wf (hsnap _ hlast) _, undoneSys m us, rfl, hmax, ?_, ?_, ?_, ?_⟩
    · show us.undoStack.dropLast.length ≤ 50
      rw [List.length_dropLast]; omega
    · show (trimStack us.maxSize (us.redoStack ++ [createSnapshot m])).length ≤ 50
      rw [hmax] at *
      exact trimStack_length _ (by simp; omega)
    · intro s hs
      exact hsnap s (List.mem_of_mem_dropLast hs)
    · intro s hs
      have hs' := trimStack_subset _ _ s hs
      rcases List.mem_append.mp hs' with hmem | hmem
      · exact hrsnap s hmem
      · rw [List.mem_singleton.mp hmem]
        exact createSnapshot_wf hwf

theorem inv_redo {m : Model} (h : Inv m) : Inv (redoM m).1 := by
  obtain ⟨hwf, us, hus, hmax, hlen, hrlen, hsnap, hrsnap⟩ := h
  by_cases hst : us.redoStack = []
  · rw [redoM_empty hus hst]
    exact ⟨hwf, us, hus, hmax, hlen, hrlen, hsnap, hrsnap⟩
  · rw [redoM_eq hus hst]
    show Inv (restoreStateM _ (us.redoStack.getLast hst))
    have hlast : us.redoStack.getLast hst ∈ us.redoStack := List.getLast_mem hst
    refine ⟨restore_wf (hrsnap _ hlast) _, redoneSys m us, rfl, hmax, ?_, ?_, ?_, ?_⟩
    · show (trimStack us.maxSize (us.undoStack ++ [createSnapshot m])).length ≤ 50
      rw [hmax] at *
      exact trimStack_length _ (by simp; omega)
    · show us.redoStack.dropLast.length ≤ 50
      rw [List.length_dropLast]; omega
    · intro s hs
      have hs' := trimStack_subset _ _ s hs
      rcases List.mem_append.mp hs' with hmem | hmem
      · exact hsnap s hmem
      · rw [List.mem_singleton.mp hmem]
        exact createSnapshot_wf hwf
    · intro s hs
      exact hrsnap s (List.mem_of_mem_dropLast hs)

theorem reachable_inv {m : Model} (h : Reachable m) : Inv m := by
  induction h with
  | refl =>
    refine ⟨by decide, NewUndoSystem, rfl, rfl, by decide, by decide, ?_, ?_⟩
    · intro s hs; cases hs
    · intro s hs; cases hs
  | tail _ hstep ih =>
    cases hstep with
    | save => exact inv_save ih
    | doUndo => exact inv_undo ih
    | doRedo => exact inv_redo ih
    | edit inputs' results' calculating' focused' hw =>
      obtain ⟨_, us, hus, hmax, hlen, hrlen, hsnap, hrsnap⟩ := ih
      exact ⟨hw, us, hus, hmax, hlen, hrlen, hsnap, hrsnap⟩

theorem trimStack_concat_ne {k : Nat} (l : List UndoState) (x : UndoState)
    (hk : 1 ≤ k) : trimStack k (l ++ [x]) ≠ [] := by
  unfold trimStack
  split
  · rename_i hlt
    intro hemp
    have hl := congrArg List.length hemp
    rw [List.length_drop, List.length_append] at hl
    rw [List.length_append] at hlt
    simp only [List.length_singleton, List.length_nil] at hl hlt
    omega
  · simp

theorem trimStack_concat_getLast {k : Nat} (l : List UndoState) (x : UndoState)
    (hk : 1 ≤ k) (h : trimStack k (l ++ [x]) ≠ []) :
    (trimStack k (l ++ [x])).getLast h = x := by
  have h2 : (trimStack k (l ++ [x])).getLast? = some x := by
    unfold trimStack
    split
    · rename_i hlt
      have hl : 1 ≤ l.length := by
        rw [List.length_append] at hlt
        simp at hlt
        omega
      rw [List.drop_append_of_le_length hl]
      exact List.getLast?_concat _
    · exact List.getLast?_concat _
  rw [List.getLast?_eq_getLast _ h] at h2
  exact Option.some.inj h2

/-- C6: in every reachable model the UndoStack holds at most 50
snapshots, and whenever it is full each of the two operations that push
onto it — `saveState` and a successful `redo` — evicts the oldest
snapshot first (the new stack is the old one minus its head, plus the
fresh snapshot at the top). -/
theorem undoStack_bounded (m : Model) (us : UndoSystem) (hr : Reachable m)
    (hu : m.undoSystem = some us) :
    us.undoStack.length ≤ 50 ∧
    (us.undoStack.length = 50 →
      (∃ us', (saveStateM m).undoSystem = some us' ∧
        us'.undoStack = us.undoStack.drop 1 ++ [createSnapshot m]) ∧
      (us.redoStack ≠ [] →
        ∃ us', ((redoM m).1).undoSystem = some us' ∧
          us'.undoStack = us.undoStack.drop 1 ++ [createSnapshot m])) := by
  obtain ⟨hwf, us₀, hus₀, hmax, hlen, _, _, _⟩ := reachable_inv hr
  rw [hu] at hus₀
  have he := Option.some.inj hus₀
  subst he
  have htrim : trimStack us.maxSize (us.undoStack ++ [createSnapshot m]) =
      us.undoStack.drop 1 ++ [createSnapshot m] → True := fun _ => trivial
  refine ⟨hlen, fun h50 => ⟨?_, fun hne => ?_⟩⟩
  · rw [saveStateM_some hu]
    refine ⟨savedSys m us, rfl, ?_⟩
    show trimStack us.maxSize (us.undoStack ++ [createSnapshot m]) = _
    unfold trimStack
    rw [if_pos (by rw [List.length_append, hmax]; simp [h50])]
    exact List.drop_append_of_le_length (by omega)
  · rw [redoM_eq hu hne]
    refine ⟨redoneSys m us, restoreStateM_undoSystem _ _, ?_⟩
    show trimStack us.maxSize (us.undoStack ++ [createSnapshot m]) = _
    unfold trimStack
    rw [if_pos (by rw [List.length_append, hmax]; simp [h50])]
    exact List.drop_append_of_le_length (by omega)

theorem undoStack_bounded_witness :
    (savedSys initialModel NewUndoSystem).undoStack.length ≤ 50 ∧
    ((savedSys initialModel NewUndoSystem).undoStack.length = 50 →
      (∃ us', (saveStateM (saveStateM initialModel)).undoSystem = some us' ∧
        us'.undoStack = (savedSys initialModel NewUndoSystem).undoStack.drop 1 ++
          [createSnapshot (saveStateM initialModel)]) ∧
      ((savedSys initialModel NewUndoSystem).redoStack ≠ [] →
        ∃ us', ((redoM (saveStateM initialModel)).1).undoSystem = some us' ∧
          us'.undoStack = (savedSys initialModel NewUndoSystem).undoStack.drop 1 ++
            [createSnapshot (saveStateM initialModel)])) :=
  undoStack_bounded (saveStateM initialModel) (savedSys initialModel NewUndoSystem)
    (Relation.ReflTransGen.single (Step.save initialModel)) rfl

/-- C8: from any reachable model with a non-empty UndoStack, `undo`
succeeds, the following `redo` succeeds, and the round trip restores the
sheet — every line text, every result text, the focused index and the
cursor offset — exactly as before the undo. -/
theorem undo_redo_roundtrip (m : Model) (us : UndoSystem) (hr : Reachable m)
    (hu : m.undoSystem = some us) (hne : us.undoStack ≠ []) :
    (undoM m).2 = true ∧ (redoM (undoM m).1).2 = true ∧
    sheetOf ((redoM (undoM m).1).1) = sheetOf m := by
  obtain ⟨hwf, us₀, hus₀, hmax, hlen, hrlen, _, _⟩ := reachable_inv hr
  rw [hu] at hus₀
  have he := Option.some.inj hus₀
  subst he
  rw [undoM_eq hu hne]
  have hm1sys : (restoreStateM { m with undoSystem := some (undoneSys m us) }
      (us.undoStack.getLast hne)).undoSystem = some (undoneSys m us) :=
    restoreStateM_undoSystem _ _
  have hrne : (undoneSys m us).redoStack ≠ [] := by
    show trimStack us.maxSize (us.redoStack ++ [createSnapshot m]) ≠ []
    exact trimStack_concat_ne _ _ (by omega)
  rw [redoM_eq hm1sys hrne]
  refine ⟨rfl, rfl, ?_⟩
  have hlast : (undoneSys m us).redoStack.getLast hrne = createSnapshot m :=
    trimStack_concat_getLast _ _ (by omega) hrne
  rw [hlast]
  exact restore_snapshot_sheet hwf _

theorem undo_redo_roundtrip_witness :
    (undoM (saveStateM initialModel)).2 = true ∧
    (redoM (undoM (saveStateM initialModel)).1).2 = true ∧
    sheetOf ((redoM (undoM (saveStateM initialModel)).1).1) =
      sheetOf (saveStateM initialModel) :=
  undo_redo_roundtrip (saveStateM initialModel) (savedSys initialModel NewUndoSystem)
    (Relation.ReflTransGen.single (Step.save initialModel)) rfl (by decide)

end Nasc
